import Mathlib

/-!
Shallow embedding of src/ts_hashmap.c: a fixed-capacity chained hash map
with integer keys and values. Each bucket is a singly linked chain of
entries; the map keeps a capacity, a size counter and an operation
counter. The C functions initmap, get, put and del are embedded as pure
state-passing functions over lists. C int values are modelled as Int;
the cast (unsigned int)key at the bucket-index computation is modelled
as key mod 2^32, and INT_MAX is the literal 2147483647.
-/

set_option autoImplicit false

namespace TsHashmap

/-- Entry of a bucket chain: one key and one value (ts_entry_t; the
next pointer becomes the tail of the enclosing list). -/
structure ts_entry_t where
  key : Int
  value : Int
deriving DecidableEq, Repr

/-- Map state (ts_hashmap_t): bucket table, capacity, size and numOps.
The table is a list of chains of length capacity. -/
structure ts_hashmap_t where
  capacity : Nat
  table : List (List ts_entry_t)
  size : Int
  numOps : Int
deriving DecidableEq, Repr

/-- Sentinel returned by get, put and del (INT_MAX from limits.h). -/
def INT_MAX : Int := 2147483647

/-- Bucket index: ((unsigned int)key) % capacity. The C cast of an int
to unsigned int is reduction mod 2^32. -/
def uindex (key : Int) (capacity : Nat) : Nat :=
  (key % (4294967296 : Int)).toNat % capacity

/-- initmap: all chains empty, size = 0, numOps = 0. -/
def initmap (capacity : Nat) : ts_hashmap_t :=
  { capacity := capacity
    table := List.replicate capacity []
    size := 0
    numOps := 0 }

/-- Chain traversal of get (lines 49-59): value of the first entry whose
key matches, or none when the chain is exhausted. -/
def findVal : List ts_entry_t → Int → Option Int
  | [], _ => none
  | e :: rest, k => if e.key = k then some e.value else findVal rest k

/-- get (lines 39-64): walk the target bucket, return the stored value
or INT_MAX when the key is absent; numOps is incremented either way and
the table and size are untouched. -/
def get (map : ts_hashmap_t) (key : Int) : Int × ts_hashmap_t :=
  let index := uindex key map.capacity
  ((findVal (map.table.getD index []) key).getD INT_MAX,
   { map with numOps := map.numOps + 1 })

/-- Chain update of put (lines 79-109): if the key is found its entry's
value is overwritten in place and the old value is reported; otherwise a
new entry is appended at the tail (or becomes the sole element of an
empty chain) and none is reported. -/
def putChain : List ts_entry_t → Int → Int → List ts_entry_t × Option Int
  | [], k, v => ([⟨k, v⟩], none)
  | e :: rest, k, v =>
    if e.key = k then ({ e with value := v } :: rest, some e.value)
    else ((e :: (putChain rest k v).1), (putChain rest k v).2)

/-- put (lines 73-115): update the target bucket's chain; on overwrite
return the previous value, on append increment size and return INT_MAX;
numOps is incremented either way. -/
def put (map : ts_hashmap_t) (key value : Int) : Int × ts_hashmap_t :=
  let index := uindex key map.capacity
  match (putChain (map.table.getD index []) key value).2 with
  | some old =>
      (old,
       { map with
           table := map.table.set index (putChain (map.table.getD index []) key value).1
           numOps := map.numOps + 1 })
  | none =>
      (INT_MAX,
       { map with
           table := map.table.set index (putChain (map.table.getD index []) key value).1
           size := map.size + 1
           numOps := map.numOps + 1 })

/-- Chain removal of del (lines 131-155): unlink the first entry whose
key matches, reporting its value; when no entry matches the chain is
returned unchanged and none is reported. -/
def delChain : List ts_entry_t → Int → List ts_entry_t × Option Int
  | [], _ => ([], none)
  | e :: rest, k =>
    if e.key = k then (rest, some e.value)
    else ((e :: (delChain rest k).1), (delChain rest k).2)

/-- del (lines 123-161): remove the first matching entry of the target
bucket, decrement size and return its value; on an absent key only
numOps changes and INT_MAX is returned. -/
def del (map : ts_hashmap_t) (key : Int) : Int × ts_hashmap_t :=
  let index := uindex key map.capacity
  match (delChain (map.table.getD index []) key).2 with
  | some v =>
      (v,
       { map with
           table := map.table.set index (delChain (map.table.getD index []) key).1
           size := map.size - 1
           numOps := map.numOps + 1 })
  | none => (INT_MAX, { map with numOps := map.numOps + 1 })

/-- Well-formed map state: the table really has capacity buckets and the
capacity is positive (the C code divides by it). Established by initmap
and preserved by every operation. -/
abbrev wf (m : ts_hashmap_t) : Prop :=
  m.table.length = m.capacity ∧ 0 < m.capacity

/-- Invariant (a) of the spec: no two entries of one chain share a key. -/
abbrev keysNodup (m : ts_hashmap_t) : Prop :=
  ∀ c ∈ m.table, (c.map ts_entry_t.key).Nodup

/-- Total number of entries across all buckets. -/
def sumLen (t : List (List ts_entry_t)) : Nat :=
  (t.map List.length).sum

/-- Invariant (b) of the spec: size equals the entry count. -/
abbrev sizeInv (m : ts_hashmap_t) : Prop :=
  m.size = (sumLen m.table : Int)

/-- Invariant (c) of the spec: an entry lives in bucket i only if its
key hashes to i. -/
abbrev hashInv (m : ts_hashmap_t) : Prop :=
  ∀ i < m.table.length, ∀ e ∈ m.table.getD i [], uindex e.key m.capacity = i

section ListHelpers

variable {α : Type}

/-- Reading back the slot just written by List.set. -/
theorem getD_set_self (l : List α) (i : Nat) (c d : α) (h : i < l.length) :
    (l.set i c).getD i d = c := by
  induction l generalizing i with
  | nil => simp at h
  | cons x xs ih =>
    cases i with
    | zero => simp
    | succ n => simpa using ih n (by simpa using h)

/-- List.set leaves every other slot unchanged. -/
theorem getD_set_ne (l : List α) (i j : Nat) (c d : α) (h : i ≠ j) :
    (l.set i c).getD j d = l.getD j d := by
  induction l generalizing i j with
  | nil => simp
  | cons x xs ih =>
    cases i with
    | zero =>
      cases j with
      | zero => exact absurd rfl h
      | succ m => simp
    | succ n =>
      cases j with
      | zero => simp
      | succ m => simpa using ih n m (by omega)

/-- Writing a slot's own current content is a no-op. -/
theorem set_getD_self (l : List α) (i : Nat) (d : α) (h : i < l.length) :
    l.set i (l.getD i d) = l := by
  induction l generalizing i with
  | nil => simp at h
  | cons x xs ih =>
    cases i with
    | zero => simp
    | succ n => simpa using ih n (by simpa using h)

/-- An in-range slot of a list is a member of it. -/
theorem getD_mem (l : List α) (i : Nat) (d : α) (h : i < l.length) :
    l.getD i d ∈ l := by
  induction l generalizing i with
  | nil => simp at h
  | cons x xs ih =>
    cases i with
    | zero => simp
    | succ n => simpa using Or.inr (ih n (by simpa using h))

end ListHelpers

/-- How List.set changes the total entry count: the old chain's length
is exchanged for the new chain's length. -/
theorem sumLen_set (l : List (List ts_entry_t)) (i : Nat) (c : List ts_entry_t)
    (h : i < l.length) :
    sumLen (l.set i c) + (l.getD i []).length = sumLen l + c.length := by
  induction l generalizing i with
  | nil => simp at h
  | cons x xs ih =>
    cases i with
    | zero => simp [sumLen]; omega
    | succ n =>
      have := ih n (by simpa using h)
      simp only [List.set, List.getD_cons_succ, sumLen, List.map_cons, List.sum_cons] at *
      omega

/-- findVal finds no entry exactly when no entry of the chain has the key. -/
theorem findVal_eq_none_iff (c : List ts_entry_t) (k : Int) :
    findVal c k = none ↔ k ∉ c.map ts_entry_t.key := by
  induction c with
  | nil => simp [findVal]
  | cons e rest ih =>
    by_cases h : e.key = k
    · simp [findVal, h]
    · simp only [findVal, h, if_false, ih, List.map_cons, List.mem_cons, not_or]
      constructor
      · intro hk
        exact ⟨fun hke => h hke.symm, hk⟩
      · intro hk
        exact hk.2

/-- The old value reported by putChain is exactly what findVal sees. -/
theorem putChain_snd (c : List ts_entry_t) (k v : Int) :
    (putChain c k v).2 = findVal c k := by
  induction c with
  | nil => simp [putChain, findVal]
  | cons e rest ih =>
    by_cases h : e.key = k
    · simp [putChain, findVal, h]
    · simp [putChain, findVal, h, ih]

/-- The removed value reported by delChain is exactly what findVal sees. -/
theorem delChain_snd (c : List ts_entry_t) (k : Int) :
    (delChain c k).2 = findVal c k := by
  induction c with
  | nil => simp [delChain, findVal]
  | cons e rest ih =>
    by_cases h : e.key = k
    · simp [delChain, findVal, h]
    · simp [delChain, findVal, h, ih]

/-- After putChain the key is bound to the new value (whatever the chain
held before). -/
theorem findVal_putChain (c : List ts_entry_t) (k v : Int) :
    findVal (putChain c k v).1 k = some v := by
  induction c with
  | nil => simp [putChain, findVal]
  | cons e rest ih =>
    by_cases h : e.key = k
    · simp [putChain, findVal, h]
    · simp [putChain, findVal, h, ih]

/-- On an absent key putChain appends the new entry at the tail of the
chain, after scanning all of it. -/
theorem putChain_of_none (c : List ts_entry_t) (k v : Int)
    (h : findVal c k = none) :
    (putChain c k v).1 = c ++ [⟨k, v⟩] := by
  induction c with
  | nil => simp [putChain]
  | cons e rest ih =>
    by_cases he : e.key = k
    · simp [findVal, he] at h
    · simp only [findVal, he, if_false] at h
      simp [putChain, he, ih h]

/-- On an absent key delChain returns the chain unchanged. -/
theorem delChain_of_none (c : List ts_entry_t) (k : Int)
    (h : findVal c k = none) :
    (delChain c k).1 = c := by
  induction c with
  | nil => simp [delChain]
  | cons e rest ih =>
    by_cases he : e.key = k
    · simp [findVal, he] at h
    · simp only [findVal, he, if_false] at h
      simp [delChain, he, ih h]

/-- On a present key putChain overwrites in place: the key sequence of
the chain is unchanged. -/
theorem putChain_keys_of_some (c : List ts_entry_t) (k v w : Int)
    (h : findVal c k = some w) :
    ((putChain c k v).1).map ts_entry_t.key = c.map ts_entry_t.key := by
  induction c with
  | nil => simp [findVal] at h
  | cons e rest ih =>
    by_cases he : e.key = k
    · simp [putChain, he]
    · simp only [findVal, he, if_false] at h
      simp [putChain, he, ih h]

/-- On a present key putChain keeps the chain's length. -/
theorem putChain_length_of_some (c : List ts_entry_t) (k v w : Int)
    (h : findVal c k = some w) :
    ((putChain c k v).1).length = c.length := by
  have := putChain_keys_of_some c k v w h
  have h1 : (((putChain c k v).1).map ts_entry_t.key).length
      = ((c.map ts_entry_t.key)).length := by rw [this]
  simpa using h1

/-- Every entry of the chain left by putChain is an old entry or the
freshly written pair. -/
theorem mem_putChain (c : List ts_entry_t) (k v : Int) (x : ts_entry_t)
    (h : x ∈ (putChain c k v).1) : x ∈ c ∨ x = ⟨k, v⟩ := by
  induction c with
  | nil =>
    simp [putChain] at h
    exact Or.inr h
  | cons e rest ih =>
    by_cases he : e.key = k
    · simp only [putChain, he, if_true, List.mem_cons] at h
      rcases h with h | h
      · exact Or.inr h
      · exact Or.inl (List.mem_cons_of_mem _ h)
    · simp only [putChain, he, if_false, List.mem_cons] at h
      rcases h with h | h
      · exact Or.inl (h ▸ List.mem_cons_self _ _)
      · rcases ih h with h1 | h1
        · exact Or.inl (List.mem_cons_of_mem _ h1)
        · exact Or.inr h1

/-- The chain left by delChain is a sublist of the original chain: at
most one entry is removed and none is reordered or rewritten. -/
theorem delChain_sublist (c : List ts_entry_t) (k : Int) :
    (delChain c k).1.Sublist c := by
  induction c with
  | nil => simp [delChain]
  | cons e rest ih =>
    by_cases he : e.key = k
    · simp only [delChain, he, if_true]
      exact List.sublist_cons_self e rest
    · simp only [delChain, he, if_false]
      exact List.Sublist.cons₂ e ih

/-- On a present key delChain removes exactly one entry. -/
theorem delChain_length_of_some (c : List ts_entry_t) (k w : Int)
    (h : findVal c k = some w) :
    ((delChain c k).1).length + 1 = c.length := by
  induction c with
  | nil => simp [findVal] at h
  | cons e rest ih =>
    by_cases he : e.key = k
    · simp [delChain, he]
    · simp only [findVal, he, if_false] at h
      simp [delChain, he, ih h]

/-- putChain preserves key uniqueness of a chain. -/
theorem putChain_nodup (c : List ts_entry_t) (k v : Int)
    (h : (c.map ts_entry_t.key).Nodup) :
    (((putChain c k v).1).map ts_entry_t.key).Nodup := by
  cases hf : findVal c k with
  | some w => rw [putChain_keys_of_some c k v w hf]; exact h
  | none =>
    rw [putChain_of_none c k v hf]
    have hk : k ∉ c.map ts_entry_t.key := (findVal_eq_none_iff c k).mp hf
    simp only [List.map_append, List.map_cons, List.map_nil, List.nodup_append]
    refine ⟨h, List.nodup_singleton k, ?_⟩
    intro a ha hb
    simp only [List.mem_singleton] at hb
    exact hk (hb ▸ ha)

/-- delChain preserves key uniqueness of a chain. -/
theorem delChain_nodup (c : List ts_entry_t) (k : Int)
    (h : (c.map ts_entry_t.key).Nodup) :
    (((delChain c k).1).map ts_entry_t.key).Nodup :=
  ((delChain_sublist c k).map ts_entry_t.key).nodup h

/-- On a chain with unique keys, delChain removes the key entirely: a
subsequent lookup of the same key misses. -/
theorem findVal_delChain (c : List ts_entry_t) (k : Int)
    (h : (c.map ts_entry_t.key).Nodup) :
    findVal (delChain c k).1 k = none := by
  induction c with
  | nil => simp [delChain, findVal]
  | cons e rest ih =>
    simp only [List.map_cons, List.nodup_cons] at h
    by_cases he : e.key = k
    · simp only [delChain, he, if_true]
      rw [findVal_eq_none_iff]
      exact he ▸ h.1
    · simp only [delChain, he, if_false, findVal]
      exact ih h.2

/-- Chain of the bucket an operation on key k targets. -/
def bucketOf (m : ts_hashmap_t) (k : Int) : List ts_entry_t :=
  m.table.getD (uindex k m.capacity) []

/-- The bucket index is in range for a positive capacity. -/
theorem uindex_lt (k : Int) (capacity : Nat) (h : 0 < capacity) :
    uindex k capacity < capacity :=
  Nat.mod_lt _ h

/-- Equation for put on a present key: the previous value is returned,
the bucket is rewritten in place, size is untouched. -/
theorem put_of_some (m : ts_hashmap_t) (k v w : Int)
    (h : findVal (bucketOf m k) k = some w) :
    put m k v =
      (w, { m with
              table := m.table.set (uindex k m.capacity)
                (putChain (bucketOf m k) k v).1
              numOps := m.numOps + 1 }) := by
  have h2 : (putChain (m.table.getD (uindex k m.capacity) []) k v).2 = some w := by
    rw [putChain_snd]
    exact h
  simp only [put]
  rw [h2]
  rfl

/-- Equation for put on an absent key: INT_MAX is returned, the new
entry is appended to the bucket, size is incremented. -/
theorem put_of_none (m : ts_hashmap_t) (k v : Int)
    (h : findVal (bucketOf m k) k = none) :
    put m k v =
      (INT_MAX, { m with
                    table := m.table.set (uindex k m.capacity)
                      (putChain (bucketOf m k) k v).1
                    size := m.size + 1
                    numOps := m.numOps + 1 }) := by
  have h2 : (putChain (m.table.getD (uindex k m.capacity) []) k v).2 = none := by
    rw [putChain_snd]
    exact h
  simp only [put]
  rw [h2]
  rfl

/-- Equation for del on a present key: the removed value is returned,
the bucket loses that entry, size is decremented. -/
theorem del_of_some (m : ts_hashmap_t) (k w : Int)
    (h : findVal (bucketOf m k) k = some w) :
    del m k =
      (w, { m with
              table := m.table.set (uindex k m.capacity)
                (delChain (bucketOf m k) k).1
              size := m.size - 1
              numOps := m.numOps + 1 }) := by
  have h2 : (delChain (m.table.getD (uindex k m.capacity) []) k).2 = some w := by
    rw [delChain_snd]
    exact h
  simp only [del]
  rw [h2]
  rfl

/-- Equation for del on an absent key: INT_MAX is returned and only
numOps changes. -/
theorem del_of_none (m : ts_hashmap_t) (k : Int)
    (h : findVal (bucketOf m k) k = none) :
    del m k = (INT_MAX, { m with numOps := m.numOps + 1 }) := by
  have h2 : (delChain (m.table.getD (uindex k m.capacity) []) k).2 = none := by
    rw [delChain_snd]
    exact h
  simp only [del]
  rw [h2]

/-- put keeps the capacity. -/
theorem capacity_put (m : ts_hashmap_t) (k v : Int) :
    (put m k v).2.capacity = m.capacity := by
  cases h : findVal (bucketOf m k) k with
  | some w => rw [put_of_some m k v w h]
  | none => rw [put_of_none m k v h]

/-- del keeps the capacity. -/
theorem capacity_del (m : ts_hashmap_t) (k : Int) :
    (del m k).2.capacity = m.capacity := by
  cases h : findVal (bucketOf m k) k with
  | some w => rw [del_of_some m k w h]
  | none => rw [del_of_none m k h]

/-- put keeps the number of buckets. -/
theorem length_table_put (m : ts_hashmap_t) (k v : Int) :
    (put m k v).2.table.length = m.table.length := by
  cases h : findVal (bucketOf m k) k with
  | some w => rw [put_of_some m k v w h]; exact List.length_set m.table _ _
  | none => rw [put_of_none m k v h]; exact List.length_set m.table _ _

/-- del keeps the number of buckets. -/
theorem length_table_del (m : ts_hashmap_t) (k : Int) :
    (del m k).2.table.length = m.table.length := by
  cases h : findVal (bucketOf m k) k with
  | some w => rw [del_of_some m k w h]; exact List.length_set m.table _ _
  | none => rw [del_of_none m k h]

/-- put preserves well-formedness. -/
theorem wf_put (m : ts_hashmap_t) (k v : Int) (h : wf m) :
    wf (put m k v).2 :=
  ⟨by rw [length_table_put, capacity_put]; exact h.1,
   by rw [capacity_put]; exact h.2⟩

/-- del preserves well-formedness. -/
theorem wf_del (m : ts_hashmap_t) (k : Int) (h : wf m) :
    wf (del m k).2 :=
  ⟨by rw [length_table_del, capacity_del]; exact h.1,
   by rw [capacity_del]; exact h.2⟩

/-- For a well-formed state the targeted bucket index is in range. -/
theorem uindex_lt_length (m : ts_hashmap_t) (k : Int) (h : wf m) :
    uindex k m.capacity < m.table.length := by
  rw [h.1]
  exact uindex_lt k m.capacity h.2

/-- After put, the bucket of the same key holds exactly the chain that
putChain produced. -/
theorem bucket_put (m : ts_hashmap_t) (k v : Int) (h : wf m) :
    bucketOf (put m k v).2 k = (putChain (bucketOf m k) k v).1 := by
  have hidx := uindex_lt_length m k h
  cases hf : findVal (bucketOf m k) k with
  | some w =>
    rw [put_of_some m k v w hf]
    simp only [bucketOf]
    exact getD_set_self _ _ _ _ hidx
  | none =>
    rw [put_of_none m k v hf]
    simp only [bucketOf]
    exact getD_set_self _ _ _ _ hidx

/-- After del, the bucket of the same key holds exactly the chain that
delChain produced. -/
theorem bucket_del (m : ts_hashmap_t) (k : Int) (h : wf m) :
    bucketOf (del m k).2 k = (delChain (bucketOf m k) k).1 := by
  have hidx := uindex_lt_length m k h
  cases hf : findVal (bucketOf m k) k with
  | some w =>
    rw [del_of_some m k w hf]
    simp only [bucketOf]
    exact getD_set_self _ _ _ _ hidx
  | none =>
    rw [del_of_none m k hf, delChain_of_none _ _ hf]
    rfl

/-- The value part of get reads the targeted bucket through findVal. -/
theorem get_fst (m : ts_hashmap_t) (k : Int) :
    (get m k).1 = (findVal (bucketOf m k) k).getD INT_MAX := rfl

/-- The state part of get only bumps numOps. -/
theorem get_snd (m : ts_hashmap_t) (k : Int) :
    (get m k).2 = { m with numOps := m.numOps + 1 } := rfl

/-- Every chain of the fresh table is empty. -/
theorem getD_replicate (n i : Nat) :
    (List.replicate n ([] : List ts_entry_t)).getD i [] = [] := by
  induction n generalizing i with
  | zero => simp
  | succ n ih =>
    cases i with
    | zero => simp
    | succ j => simp [ih j]

/-- A well-formed state with unique keys per chain has a unique-key
chain in the targeted bucket. -/
theorem bucket_nodup (m : ts_hashmap_t) (k : Int) (h : wf m)
    (hnd : keysNodup m) :
    ((bucketOf m k).map ts_entry_t.key).Nodup :=
  hnd _ (getD_mem _ _ _ (uindex_lt_length m k h))

/-- put preserves invariant (a): key uniqueness in every chain. -/
theorem keysNodup_put (m : ts_hashmap_t) (k v : Int) (h : wf m)
    (hnd : keysNodup m) :
    keysNodup (put m k v).2 := by
  have hset : (put m k v).2.table
      = m.table.set (uindex k m.capacity) (putChain (bucketOf m k) k v).1 := by
    cases hf : findVal (bucketOf m k) k with
    | some w => rw [put_of_some m k v w hf]
    | none => rw [put_of_none m k v hf]
  intro c hc
  rw [hset] at hc
  rcases List.mem_or_eq_of_mem_set hc with hm | he
  · exact hnd c hm
  · rw [he]
    exact putChain_nodup _ k v (bucket_nodup m k h hnd)

/-- del preserves invariant (a): key uniqueness in every chain. -/
theorem keysNodup_del (m : ts_hashmap_t) (k : Int) (h : wf m)
    (hnd : keysNodup m) :
    keysNodup (del m k).2 := by
  cases hf : findVal (bucketOf m k) k with
  | some w =>
    rw [del_of_some m k w hf]
    intro c hc
    rcases List.mem_or_eq_of_mem_set hc with hm | he
    · exact hnd c hm
    · rw [he]
      exact delChain_nodup _ k (bucket_nodup m k h hnd)
  | none =>
    rw [del_of_none m k hf]
    exact hnd

/-- Lookup right after an upsert of the same key returns the value just
stored. -/
theorem get_put (m : ts_hashmap_t) (k v : Int) (h : wf m) :
    (get (put m k v).2 k).1 = v := by
  rw [get_fst, bucket_put m k v h, findVal_putChain]
  rfl

/-- The value a second upsert of the same key reports as previous. -/
theorem put_put_fst (m : ts_hashmap_t) (k v1 v2 : Int) (h : wf m) :
    (put (put m k v1).2 k v2).1 = v1 := by
  have hb : findVal (bucketOf (put m k v1).2 k) k = some v1 := by
    rw [bucket_put m k v1 h, findVal_putChain]
  rw [put_of_some _ k v2 v1 hb]

/-- A second upsert of the same key leaves size unchanged. -/
theorem put_put_size (m : ts_hashmap_t) (k v1 v2 : Int) (h : wf m) :
    (put (put m k v1).2 k v2).2.size = (put m k v1).2.size := by
  have hb : findVal (bucketOf (put m k v1).2 k) k = some v1 := by
    rw [bucket_put m k v1 h, findVal_putChain]
  rw [put_of_some _ k v2 v1 hb]

/-- Delete right after an upsert of the same key returns the value just
stored and decrements size by one. -/
theorem del_put (m : ts_hashmap_t) (k v : Int) (h : wf m) :
    (del (put m k v).2 k).1 = v
    ∧ (del (put m k v).2 k).2.size = (put m k v).2.size - 1 := by
  have hb : findVal (bucketOf (put m k v).2 k) k = some v := by
    rw [bucket_put m k v h, findVal_putChain]
  rw [del_of_some _ k v hb]
  exact ⟨rfl, rfl⟩

/-- Lookup after upsert-then-delete of a key misses, provided chains
have unique keys. -/
theorem get_del_put (m : ts_hashmap_t) (k v : Int) (h : wf m)
    (hnd : keysNodup m) :
    (get (del (put m k v).2 k).2 k).1 = INT_MAX := by
  have h1 : wf (put m k v).2 := wf_put m k v h
  have hnd1 : ((bucketOf (put m k v).2 k).map ts_entry_t.key).Nodup := by
    rw [bucket_put m k v h]
    exact putChain_nodup _ k v (bucket_nodup m k h hnd)
  rw [get_fst, bucket_del _ k h1, findVal_delChain _ k hnd1]
  rfl

/-- put preserves invariant (b): size counts the entries. -/
theorem sizeInv_put (m : ts_hashmap_t) (k v : Int) (h : wf m)
    (hs : sizeInv m) :
    sizeInv (put m k v).2 := by
  have hidx := uindex_lt_length m k h
  cases hf : findVal (bucketOf m k) k with
  | some w =>
    rw [put_of_some m k v w hf]
    have hlen := putChain_length_of_some (bucketOf m k) k v w hf
    have hsum := sumLen_set m.table (uindex k m.capacity)
      (putChain (bucketOf m k) k v).1 hidx
    simp only [sizeInv] at hs ⊢
    simp only [bucketOf] at hlen hsum ⊢
    omega
  | none =>
    rw [put_of_none m k v hf]
    have hlen : (putChain (bucketOf m k) k v).1.length
        = (bucketOf m k).length + 1 := by
      rw [putChain_of_none _ _ _ hf]
      simp
    have hsum := sumLen_set m.table (uindex k m.capacity)
      (putChain (bucketOf m k) k v).1 hidx
    simp only [sizeInv] at hs ⊢
    simp only [bucketOf] at hlen hsum ⊢
    omega

/-- del preserves invariant (b): size counts the entries. -/
theorem sizeInv_del (m : ts_hashmap_t) (k : Int) (h : wf m)
    (hs : sizeInv m) :
    sizeInv (del m k).2 := by
  have hidx := uindex_lt_length m k h
  cases hf : findVal (bucketOf m k) k with
  | some w =>
    rw [del_of_some m k w hf]
    have hlen := delChain_length_of_some (bucketOf m k) k w hf
    have hsum := sumLen_set m.table (uindex k m.capacity)
      (delChain (bucketOf m k) k).1 hidx
    simp only [sizeInv] at hs ⊢
    simp only [bucketOf] at hlen hsum ⊢
    omega
  | none =>
    rw [del_of_none m k hf]
    exact hs

/-- put preserves invariant (c): entries live in the bucket their key
hashes to. -/
theorem hashInv_put (m : ts_hashmap_t) (k v : Int) (h : wf m)
    (hh : hashInv m) :
    hashInv (put m k v).2 := by
  have hidx := uindex_lt_length m k h
  have hset : (put m k v).2.table
      = m.table.set (uindex k m.capacity) (putChain (bucketOf m k) k v).1 := by
    cases hf : findVal (bucketOf m k) k with
    | some w => rw [put_of_some m k v w hf]
    | none => rw [put_of_none m k v hf]
  intro i hi e he
  rw [capacity_put]
  rw [hset, List.length_set] at hi
  rw [hset] at he
  by_cases hij : i = uindex k m.capacity
  · subst hij
    rw [getD_set_self _ _ _ _ hidx] at he
    rcases mem_putChain _ k v e he with hm | hkv
    · exact hh _ hi e hm
    · rw [hkv]
  · rw [getD_set_ne _ _ _ _ _ (fun hx => hij hx.symm)] at he
    exact hh i hi e he

/-- del preserves invariant (c): entries live in the bucket their key
hashes to. -/
theorem hashInv_del (m : ts_hashmap_t) (k : Int) (h : wf m)
    (hh : hashInv m) :
    hashInv (del m k).2 := by
  have hidx := uindex_lt_length m k h
  cases hf : findVal (bucketOf m k) k with
  | some w =>
    rw [del_of_some m k w hf]
    intro i hi e he
    rw [List.length_set] at hi
    by_cases hij : i = uindex k m.capacity
    · subst hij
      rw [getD_set_self _ _ _ _ hidx] at he
      exact hh _ hi e ((delChain_sublist (bucketOf m k) k).mem he)
    · rw [getD_set_ne _ _ _ _ _ (fun hx => hij hx.symm)] at he
      exact hh i hi e he
  | none =>
    rw [del_of_none m k hf]
    exact hh

/-- Operations on key k do not touch any other bucket: put rewrites
only the targeted slot. -/
theorem put_other_bucket (m : ts_hashmap_t) (k v : Int) (j : Nat)
    (hj : j ≠ uindex k m.capacity) :
    (put m k v).2.table.getD j [] = m.table.getD j [] := by
  cases hf : findVal (bucketOf m k) k with
  | some w =>
    rw [put_of_some m k v w hf]
    exact getD_set_ne _ _ _ _ _ (fun hx => hj hx.symm)
  | none =>
    rw [put_of_none m k v hf]
    exact getD_set_ne _ _ _ _ _ (fun hx => hj hx.symm)

/-- Operations on key k do not touch any other bucket: del rewrites
only the targeted slot. -/
theorem del_other_bucket (m : ts_hashmap_t) (k : Int) (j : Nat)
    (hj : j ≠ uindex k m.capacity) :
    (del m k).2.table.getD j [] = m.table.getD j [] := by
  cases hf : findVal (bucketOf m k) k with
  | some w =>
    rw [del_of_some m k w hf]
    exact getD_set_ne _ _ _ _ _ (fun hx => hj hx.symm)
  | none =>
    rw [del_of_none m k hf]

/-!
Interleaving model for the concurrency claim. Inside put, the chain
mutation of a bucket happens while that bucket's mutex is held, so two
puts that target different buckets may run their critical sections at
the same time. The shared counter map->size, however, is incremented at
line 111 with a plain non-atomic read-modify-write while only the
thread's own bucket lock is held, so for two threads in different
buckets the two size increments can interleave at the granularity of
one read and one write each. The steps below split put accordingly:
putChainStep is the lock-protected chain mutation, readSize and
writeSize are the two halves of size++.
-/

/-- Chain mutation of put, performed under the target bucket's lock. -/
def putChainStep (m : ts_hashmap_t) (key value : Int) : ts_hashmap_t :=
  let index := uindex key m.capacity
  { m with table := m.table.set index (putChain (m.table.getD index []) key value).1 }

/-- Load half of the unsynchronized size++ at line 111. -/
def readSize (m : ts_hashmap_t) : Int :=
  m.size

/-- Store half of the unsynchronized size++ at line 111. -/
def writeSize (m : ts_hashmap_t) (v : Int) : ts_hashmap_t :=
  { m with size := v }

/-- A legal schedule of two concurrent puts with distinct keys on a
fresh two-bucket map. Thread A runs put(0, 10) holding lock 0, thread B
runs put(1, 11) holding lock 1; the locks are different so the critical
sections overlap. Both threads load size before either stores its
incremented value, which the locking discipline of the source does not
prevent. -/
def lostUpdateRun : ts_hashmap_t :=
  let m0 := initmap 2
  let m1 := putChainStep m0 0 10
  let m2 := putChainStep m1 1 11
  let a := readSize m2
  let b := readSize m2
  let m3 := writeSize m2 (a + 1)
  writeSize m3 (b + 1)

/-- Sample well-formed state used by the witnesses: three buckets, one
entry (key 1, value 7). -/
def sampleMap : ts_hashmap_t := (put (initmap 3) 1 7).2

/-- C1: every bucket chain holds at most one entry per distinct key, in
the fresh map and preserved by put and del; get leaves the table
untouched; put overwrites in place on a hit (key sequence unchanged)
and appends only after the whole chain was scanned without a match; del
removes at most one entry (the remaining chain is a sublist losing at
most one element). -/
theorem claim_C1_unique_keys (m : ts_hashmap_t) (k v : Int) (n : Nat)
    (h : wf m) (hnd : keysNodup m) :
    keysNodup (initmap n)
    ∧ keysNodup (put m k v).2
    ∧ keysNodup (del m k).2
    ∧ (get m k).2.table = m.table
    ∧ (∀ w, findVal (bucketOf m k) k = some w →
        ((putChain (bucketOf m k) k v).1).map ts_entry_t.key
          = (bucketOf m k).map ts_entry_t.key)
    ∧ (findVal (bucketOf m k) k = none →
        (putChain (bucketOf m k) k v).1 = bucketOf m k ++ [⟨k, v⟩])
    ∧ (delChain (bucketOf m k) k).1.Sublist (bucketOf m k)
    ∧ (bucketOf m k).length ≤ (delChain (bucketOf m k) k).1.length + 1 := by
  refine ⟨?_, keysNodup_put m k v h hnd, keysNodup_del m k h hnd, rfl,
    ?_, ?_, delChain_sublist _ _, ?_⟩
  · intro c hc
    rw [List.eq_of_mem_replicate hc]
    exact List.nodup_nil
  · intro w hw
    exact putChain_keys_of_some _ k v w hw
  · intro hnone
    exact putChain_of_none _ k v hnone
  · cases hf : findVal (bucketOf m k) k with
    | some w =>
      have := delChain_length_of_some _ k w hf
      omega
    | none =>
      rw [delChain_of_none _ _ hf]
      omega

/-- Closed instance of claim C1 at a concrete state. -/
theorem claim_C1_unique_keys_witness :
    wf sampleMap ∧ keysNodup sampleMap
    ∧ (keysNodup (initmap 2)
      ∧ keysNodup (put sampleMap 4 9).2
      ∧ keysNodup (del sampleMap 4).2
      ∧ (get sampleMap 4).2.table = sampleMap.table
      ∧ (∀ w, findVal (bucketOf sampleMap 4) 4 = some w →
          ((putChain (bucketOf sampleMap 4) 4 9).1).map ts_entry_t.key
            = (bucketOf sampleMap 4).map ts_entry_t.key)
      ∧ (findVal (bucketOf sampleMap 4) 4 = none →
          (putChain (bucketOf sampleMap 4) 4 9).1
            = bucketOf sampleMap 4 ++ [⟨4, 9⟩])
      ∧ (delChain (bucketOf sampleMap 4) 4).1.Sublist (bucketOf sampleMap 4)
      ∧ (bucketOf sampleMap 4).length
          ≤ (delChain (bucketOf sampleMap 4) 4).1.length + 1) :=
  ⟨by decide, by decide, claim_C1_unique_keys sampleMap 4 9 2 (by decide) (by decide)⟩

/-- C2: upsert followed immediately by lookup of the same key returns
the value just stored. -/
theorem claim_C2_put_then_get (m : ts_hashmap_t) (k v : Int) (h : wf m) :
    (get (put m k v).2 k).1 = v :=
  get_put m k v h

/-- Closed instance of claim C2 at a concrete state. -/
theorem claim_C2_put_then_get_witness :
    wf sampleMap ∧ (get (put sampleMap 5 42).2 5).1 = 42 :=
  ⟨by decide, claim_C2_put_then_get sampleMap 5 42 (by decide)⟩

/-- C3: a second upsert of the same key returns the first value as the
previous value, a lookup afterwards returns the second value, and the
second upsert leaves size unchanged. -/
theorem claim_C3_upsert_twice (m : ts_hashmap_t) (k v1 v2 : Int) (h : wf m) :
    (put (put m k v1).2 k v2).1 = v1
    ∧ (get (put (put m k v1).2 k v2).2 k).1 = v2
    ∧ (put (put m k v1).2 k v2).2.size = (put m k v1).2.size :=
  ⟨put_put_fst m k v1 v2 h,
   get_put (put m k v1).2 k v2 (wf_put m k v1 h),
   put_put_size m k v1 v2 h⟩

/-- Closed instance of claim C3 at a concrete state. -/
theorem claim_C3_upsert_twice_witness :
    wf sampleMap
    ∧ ((put (put sampleMap 1 3).2 1 4).1 = 3
      ∧ (get (put (put sampleMap 1 3).2 1 4).2 1).1 = 4
      ∧ (put (put sampleMap 1 3).2 1 4).2.size = (put sampleMap 1 3).2.size) :=
  ⟨by decide, claim_C3_upsert_twice sampleMap 1 3 4 (by decide)⟩

/-- C4: delete right after an upsert of the same key returns the value
just stored, a subsequent lookup reports NotFound (INT_MAX), and size
drops by exactly one. -/
theorem claim_C4_del_after_put (m : ts_hashmap_t) (k v : Int)
    (h : wf m) (hnd : keysNodup m) :
    (del (put m k v).2 k).1 = v
    ∧ (get (del (put m k v).2 k).2 k).1 = INT_MAX
    ∧ (del (put m k v).2 k).2.size = (put m k v).2.size - 1 :=
  ⟨(del_put m k v h).1, get_del_put m k v h hnd, (del_put m k v h).2⟩

/-- Closed instance of claim C4 at a concrete state. -/
theorem claim_C4_del_after_put_witness :
    wf sampleMap ∧ keysNodup sampleMap
    ∧ ((del (put sampleMap 2 9).2 2).1 = 9
      ∧ (get (del (put sampleMap 2 9).2 2).2 2).1 = INT_MAX
      ∧ (del (put sampleMap 2 9).2 2).2.size = (put sampleMap 2 9).2.size - 1) :=
  ⟨by decide, by decide, claim_C4_del_after_put sampleMap 2 9 (by decide) (by decide)⟩

/-- C5: delete of an absent key reports NotFound (INT_MAX) and leaves
size unchanged; the whole state is unchanged apart from numOps. -/
theorem claim_C5_del_absent (m : ts_hashmap_t) (k : Int)
    (habs : findVal (bucketOf m k) k = none) :
    (del m k).1 = INT_MAX
    ∧ (del m k).2.size = m.size
    ∧ (del m k).2 = { m with numOps := m.numOps + 1 } := by
  rw [del_of_none m k habs]
  exact ⟨rfl, rfl, rfl⟩

/-- Closed instance of claim C5 at a concrete state. -/
theorem claim_C5_del_absent_witness :
    findVal (bucketOf sampleMap 5) 5 = none
    ∧ ((del sampleMap 5).1 = INT_MAX
      ∧ (del sampleMap 5).2.size = sampleMap.size
      ∧ (del sampleMap 5).2 = { sampleMap with numOps := sampleMap.numOps + 1 }) :=
  ⟨by decide, claim_C5_del_absent sampleMap 5 (by decide)⟩

/-- C6: size equals the total number of entries across all buckets:
this holds for the fresh map (size 0, all chains empty) and is kept by
get (which changes neither size nor table), put and del. -/
theorem claim_C6_size_count (n : Nat) (m : ts_hashmap_t) (k v : Int)
    (h : wf m) (hs : sizeInv m) :
    sizeInv (initmap n)
    ∧ (get m k).2.size = m.size
    ∧ (get m k).2.table = m.table
    ∧ sizeInv (get m k).2
    ∧ sizeInv (put m k v).2
    ∧ sizeInv (del m k).2 := by
  refine ⟨?_, rfl, rfl, hs, sizeInv_put m k v h hs, sizeInv_del m k h hs⟩
  simp [initmap, sizeInv, sumLen, List.map_replicate]

/-- Closed instance of claim C6 at a concrete state. -/
theorem claim_C6_size_count_witness :
    wf sampleMap ∧ sizeInv sampleMap
    ∧ (sizeInv (initmap 4)
      ∧ (get sampleMap 0).2.size = sampleMap.size
      ∧ (get sampleMap 0).2.table = sampleMap.table
      ∧ sizeInv (get sampleMap 0).2
      ∧ sizeInv (put sampleMap 0 6).2
      ∧ sizeInv (del sampleMap 0).2) :=
  ⟨by decide, by decide, claim_C6_size_count 4 sampleMap 0 6 (by decide) (by decide)⟩

/-- C7: every operation targets the bucket at index unsigned(key) mod
capacity, other buckets are untouched, and an entry with some key lives
in bucket i only if that key hashes to i: true of the fresh map and
preserved by put and del (get leaves the table unchanged). -/
theorem claim_C7_bucket_index (n : Nat) (m : ts_hashmap_t) (k v : Int)
    (j : Nat) (h : wf m) (hh : hashInv m) (hj : j ≠ uindex k m.capacity) :
    hashInv (initmap n)
    ∧ hashInv (put m k v).2
    ∧ hashInv (del m k).2
    ∧ (get m k).2.table = m.table
    ∧ (put m k v).2.table.getD j [] = m.table.getD j []
    ∧ (del m k).2.table.getD j [] = m.table.getD j [] := by
  refine ⟨?_, hashInv_put m k v h hh, hashInv_del m k h hh, rfl,
    put_other_bucket m k v j hj, del_other_bucket m k j hj⟩
  intro i hi e he
  rw [show (initmap n).table = List.replicate n [] from rfl, getD_replicate] at he
  simp at he

/-- Closed instance of claim C7 at a concrete state. -/
theorem claim_C7_bucket_index_witness :
    wf sampleMap ∧ hashInv sampleMap ∧ (0 : Nat) ≠ uindex 4 sampleMap.capacity
    ∧ (hashInv (initmap 2)
      ∧ hashInv (put sampleMap 4 9).2
      ∧ hashInv (del sampleMap 4).2
      ∧ (get sampleMap 4).2.table = sampleMap.table
      ∧ (put sampleMap 4 9).2.table.getD 0 [] = sampleMap.table.getD 0 []
      ∧ (del sampleMap 4).2.table.getD 0 [] = sampleMap.table.getD 0 []) :=
  ⟨by decide, by decide, by decide,
   claim_C7_bucket_index 2 sampleMap 4 9 0 (by decide) (by decide) (by decide)⟩

/-- C8: behavior of the embedded put on an absent key: it always
reports the WasAbsent sentinel INT_MAX and appends the new entry; the
embedding, like the source, has no allocation-failure outcome at all,
because line 97 of the source never checks the malloc result (the claim
of an explicit allocation-failure error has no counterpart in the
code). -/
theorem claim_C8_no_alloc_failure_path (m : ts_hashmap_t) (k v : Int)
    (habs : findVal (bucketOf m k) k = none) :
    (put m k v).1 = INT_MAX
    ∧ (put m k v).2.table
        = m.table.set (uindex k m.capacity) (bucketOf m k ++ [⟨k, v⟩]) := by
  rw [put_of_none m k v habs, putChain_of_none _ _ _ habs]
  exact ⟨rfl, rfl⟩

/-- Closed instance of the C8 theorem at a concrete state. -/
theorem claim_C8_no_alloc_failure_path_witness :
    findVal (bucketOf sampleMap 5) 5 = none
    ∧ ((put sampleMap 5 8).1 = INT_MAX
      ∧ (put sampleMap 5 8).2.table
          = sampleMap.table.set (uindex 5 sampleMap.capacity)
              (bucketOf sampleMap 5 ++ [⟨5, 8⟩])) :=
  ⟨by decide, claim_C8_no_alloc_failure_path sampleMap 5 8 (by decide)⟩

/-- C9: a legal interleaving of two concurrent puts with distinct keys
on a fresh two-bucket map in which both entries are present afterwards
yet size ends at 1, not 2: the unsynchronized size++ of line 111 loses
an update, refuting Size == N. -/
theorem claim_C9_lost_update :
    findVal (lostUpdateRun.table.getD 0 []) 0 = some 10
    ∧ findVal (lostUpdateRun.table.getD 1 []) 1 = some 11
    ∧ sumLen lostUpdateRun.table = 2
    ∧ lostUpdateRun.size = 1
    ∧ lostUpdateRun.size ≠ 2 := by decide

/-- C10: INT_MAX is both the NotFound/WasAbsent sentinel and a storable
value: lookup of key 0 stored with value INT_MAX returns exactly what
lookup of the absent key 7 returns; put's WasAbsent result equals its
previous-value result for a stored INT_MAX, and del's NotFound result
equals its removed-value result for a stored INT_MAX. -/
theorem claim_C10_sentinel_ambiguity :
    (get (put (initmap 4) 0 INT_MAX).2 0).1 = INT_MAX
    ∧ findVal (bucketOf (put (initmap 4) 0 INT_MAX).2 0) 0 = some INT_MAX
    ∧ (get (initmap 4) 7).1 = INT_MAX
    ∧ (put (put (initmap 4) 0 INT_MAX).2 0 5).1 = INT_MAX
    ∧ (put (initmap 4) 1 5).1 = INT_MAX
    ∧ (del (put (initmap 4) 0 INT_MAX).2 0).1 = INT_MAX
    ∧ (del (initmap 4) 7).1 = INT_MAX := by decide

end TsHashmap
